import Mathlib

/-!
Verification of the structural-comparison and search engine exposed by the
pyfoldseek binding layer (3Di encoding, TM-align superposition, LDDT scoring,
database search and greedy clustering).

The engine itself is a compiled extension; the repository ships its Python-level
interface, tests and examples.  The definitions below are therefore modelled
from the specification of the engine: scores are exact rationals, coordinate
arrays are lists of 3-vectors, and the numeric superposition engine is captured
by its input/output contract.  Each component's doc comment records what is
being modelled.
-/

namespace Foldseek

/-- Modelled from the spec: the error taxonomy of the engine (ShapeError,
InsufficientResiduesError, InvalidArgumentError, LookupError), signalled to the
caller as recoverable conditions.  The concrete raising code lives in the
compiled extension. -/
inductive FsError where
  | shapeError
  | insufficientResiduesError
  | invalidArgumentError
  | lookupError
deriving DecidableEq

/-! ## Search pipeline -/

/-- Modelled from the spec: the scores the Superposition Engine reports for one
query/candidate comparison — TM-score, RMSD, alignment length and the two
coverage fractions.  The engine computes these with real arithmetic in the
compiled extension; here they are exact rationals. -/
structure AlignOut where
  tmscore : ℚ
  rmsd : ℚ
  alignLen : ℕ
  queryCoverage : ℚ
  targetCoverage : ℚ
deriving DecidableEq

/-- Modelled from the spec: one search hit — the database position of the
target record together with the scores of the comparison.  (The target's key
and name are lookups of the position in the database and carry no logical
content of their own.) -/
structure SearchHit where
  targetIdx : ℕ
  tmscore : ℚ
  rmsd : ℚ
  alignLen : ℕ
  queryCoverage : ℚ
  targetCoverage : ℚ
deriving DecidableEq

/-- Build the hit for the record at database position `i` from the engine's
scores. -/
def mkHit (i : ℕ) (o : AlignOut) : SearchHit :=
  ⟨i, o.tmscore, o.rmsd, o.alignLen, o.queryCoverage, o.targetCoverage⟩

/-- Modelled from the spec: the search filter — keep a hit only if
TM-score ≥ threshold AND (query coverage ≥ coverage threshold OR target
coverage ≥ coverage threshold). -/
def hitKeep (tmThr covThr : ℚ) (h : SearchHit) : Bool :=
  decide (tmThr ≤ h.tmscore) &&
    (decide (covThr ≤ h.queryCoverage) || decide (covThr ≤ h.targetCoverage))

/-- Sort key realizing the spec's ranking: TM-score descending, then alignment
length descending, then RMSD ascending, then original database order.  Encoded
lexicographically with the descending components negated. -/
def hitKey (h : SearchHit) : ℚ ×ₗ (ℤ ×ₗ (ℚ ×ₗ ℕ)) :=
  toLex (-h.tmscore, toLex (-(h.alignLen : ℤ), toLex (h.rmsd, h.targetIdx)))

/-- Modelled from the spec: `hitBefore a b` holds when `a` may appear no later
than `b` in the sorted result list. -/
def hitBefore (a b : SearchHit) : Prop :=
  hitKey a ≤ hitKey b

instance : DecidableRel hitBefore :=
  fun a b => inferInstanceAs (Decidable (hitKey a ≤ hitKey b))

instance : IsTotal SearchHit hitBefore :=
  ⟨fun a b => le_total (hitKey a) (hitKey b)⟩

instance : IsTrans SearchHit hitBefore :=
  ⟨fun _ _ _ h₁ h₂ => le_trans h₁ h₂⟩

/-- Modelled from the spec: the Search Pipeline.  The Superposition Engine is
abstracted as the oracle `engine` mapping a database record to its comparison
scores against the fixed query; the database is the ordered list of its
records.  The pipeline scores every record, filters by the TM-score and
coverage thresholds, sorts by the ranking order and finally truncates to the
max-hit cap (`none` = unbounded). -/
def search {α : Type} (engine : α → AlignOut) (db : List α)
    (tmThr covThr : ℚ) (maxHits : Option ℕ) : List SearchHit :=
  let hits := (db.enum.map fun p => mkHit p.1 (engine p.2)).filter
    (hitKeep tmThr covThr)
  let sorted := hits.insertionSort hitBefore
  match maxHits with
  | none => sorted
  | some m => sorted.take m

/-! ## Clustering engine -/

/-- Modelled from the spec: one cluster — a representative record index plus
the member indices (the representative is excluded from the member list). -/
structure Cluster where
  representativeIdx : ℕ
  memberIndices : List ℕ
deriving DecidableEq

/-- Cluster size: members plus the representative. -/
def Cluster.size (c : Cluster) : ℕ := c.memberIndices.length + 1

/-- All record indices of a cluster: the representative followed by the
members. -/
def Cluster.indices (c : Cluster) : List ℕ := c.representativeIdx :: c.memberIndices

/-- The concatenation of all indices over a list of clusters. -/
def clusterIndices (cs : List Cluster) : List ℕ := (cs.map Cluster.indices).flatten

/-- Modelled from the spec: the edge-degree of record `i` — the number of
other records in the unclustered pool whose similarity edge to `i`
qualifies. -/
def degree (sim : ℕ → ℕ → Bool) (pool : List ℕ) (i : ℕ) : ℕ :=
  (pool.filter fun j => decide (j ≠ i) && sim i j).length

/-- Modelled from the spec: representative selection — the unclustered record
with the highest edge-degree, ties broken by the lower record index.  The fold
replaces the current best only on strictly higher degree or on equal degree
with a strictly lower index, so the lowest index among the maximal degrees
wins. -/
def pickRep (sim : ℕ → ℕ → Bool) (pool : List ℕ) : ℕ :=
  match pool with
  | [] => 0
  | p :: ps =>
    ps.foldl (fun best j =>
      if degree sim pool best < degree sim pool j ∨
          (degree sim pool best = degree sim pool j ∧ j < best) then j else best) p

/-- Modelled from the spec: the greedy clustering rounds.  Each round selects
the representative, forms the cluster from its qualifying unclustered
neighbours, and removes the cluster from the pool; `fuel` bounds the number of
rounds (each round removes at least the representative, so a fuel equal to the
initial pool size always suffices). -/
def greedyAux (sim : ℕ → ℕ → Bool) : ℕ → List ℕ → List Cluster
  | 0, _ => []
  | _ + 1, [] => []
  | fuel + 1, j :: rest =>
    let pool := j :: rest
    let rep := pickRep sim pool
    let members := pool.filter fun k => decide (k ≠ rep) && sim rep k
    let remaining := pool.filter fun k => !(decide (k = rep) || sim rep k)
    { representativeIdx := rep, memberIndices := members } ::
      greedyAux sim fuel remaining

/-- Modelled from the spec: greedy clustering of a database with records
`0, …, n-1` under the qualifying-edge relation `sim`. -/
def greedyClusters (sim : ℕ → ℕ → Bool) (n : ℕ) : List Cluster :=
  greedyAux sim n (List.range n)

/-- Modelled from the spec: a similarity edge between two records qualifies
when the pairwise TM-score meets the TM-score threshold and a coverage side
meets the coverage threshold (Search Pipeline semantics).  `pairAlign i j` is
the Superposition Engine's output for the record pair. -/
def qualifies (pairAlign : ℕ → ℕ → AlignOut) (tmThr covThr : ℚ) (i j : ℕ) : Bool :=
  decide (tmThr ≤ (pairAlign i j).tmscore) &&
    (decide (covThr ≤ (pairAlign i j).queryCoverage) ||
      decide (covThr ≤ (pairAlign i j).targetCoverage))

/-- Modelled from the spec: the greedy clustering mode of `cluster`, over a
database of `n` records whose pairwise scores are given by `pairAlign`. -/
def clusterGreedy (pairAlign : ℕ → ℕ → AlignOut) (n : ℕ) (tmThr covThr : ℚ) :
    List Cluster :=
  greedyClusters (qualifies pairAlign tmThr covThr) n

/-- Modelled from the spec: the `cluster` entry point.  The mode is an
enumerated string parameter; the greedy mode runs greedy clustering and an
unrecognized mode fails with InvalidArgumentError. -/
def cluster (pairAlign : ℕ → ℕ → AlignOut) (n : ℕ) (tmThr covThr : ℚ)
    (mode : String) : Except FsError (List Cluster) :=
  if mode = "greedy" then Except.ok (clusterGreedy pairAlign n tmThr covThr)
  else Except.error FsError.invalidArgumentError

/-! ## 3Di encoder -/

/-- A coordinate array: one row of real components per residue (a well-shaped
row has exactly 3 columns). -/
abbrev Coords := List (List ℚ)

/-- Modelled from the spec: validity of the four backbone coordinate arrays
passed to the 3Di encoder — the four arrays have equal lengths and every row
has exactly 3 components. -/
def WellShaped (ca nc cc cb : Coords) : Prop :=
  nc.length = ca.length ∧ cc.length = ca.length ∧ cb.length = ca.length ∧
    ∀ r ∈ ca ++ nc ++ cc ++ cb, r.length = 3

instance (ca nc cc cb : Coords) : Decidable (WellShaped ca nc cc cb) := by
  unfold WellShaped; infer_instance

/-- The type of the per-residue state assignment of the 3Di encoder: from the
four coordinate arrays and a residue position, the discrete structural-alphabet
symbol of that residue.  Modelled from the spec as an abstract parameter: the
local-frame construction, feature computation and pretrained quantization
centroids live in the compiled extension and only their arity (one symbol per
residue, computed deterministically from the chain's geometry) is visible at
the interface. -/
abbrev ResidueEncoder := Coords → Coords → Coords → Coords → ℕ → Char

/-- Encode every residue of a chain: one symbol per residue position. -/
def encodeAll (enc : ResidueEncoder) (ca nc cc cb : Coords) : List Char :=
  (List.range ca.length).map (enc ca nc cc cb)

/-- Modelled from the spec: `coords_to_3di` — validate the shapes of the four
coordinate arrays, failing with ShapeError on mismatched lengths or a
non-3-column row, and otherwise return the encoded sequence, one symbol per
residue. -/
def coordsTo3di (enc : ResidueEncoder) (ca nc cc cb : Coords) :
    Except FsError (List Char) :=
  if WellShaped ca nc cc cb then Except.ok (encodeAll enc ca nc cc cb)
  else Except.error FsError.shapeError

/-! ## Structure and chain model -/

/-- Modelled from the spec: a chain — name, amino-acid sequence, the four
backbone coordinate arrays, and the cached 3Di sequence derived from the
coordinates when the chain is constructed. -/
structure Chain where
  name : String
  sequence : List Char
  caCoords : Coords
  nCoords : Coords
  cCoords : Coords
  cbCoords : Coords
  seq3di : List Char
deriving DecidableEq

instance : Inhabited Chain := ⟨⟨"", [], [], [], [], [], []⟩⟩

/-- Modelled from the spec: a successfully constructed chain has well-shaped
coordinate arrays and caches exactly the 3Di sequence the encoder derives from
its own backbone coordinates. -/
def Chain.WF (enc : ResidueEncoder) (ch : Chain) : Prop :=
  WellShaped ch.caCoords ch.nCoords ch.cCoords ch.cbCoords ∧
    ch.seq3di = encodeAll enc ch.caCoords ch.nCoords ch.cCoords ch.cbCoords

/-- Modelled from the spec: a structure — a filename plus the ordered chains
(at least one chain for any successfully loaded structure). -/
structure Structure where
  filename : String
  chains : List Chain
deriving DecidableEq

/-- The flattened accessors of a structure alias its first chain. -/
def Structure.firstChain (s : Structure) : Chain := s.chains.headD default

def Structure.seq3di (s : Structure) : List Char := s.firstChain.seq3di

def Structure.caCoords (s : Structure) : Coords := s.firstChain.caCoords

def Structure.nCoords (s : Structure) : Coords := s.firstChain.nCoords

def Structure.cCoords (s : Structure) : Coords := s.firstChain.cCoords

def Structure.cbCoords (s : Structure) : Coords := s.firstChain.cbCoords

/-! ## Superposition engine (TM-align core) contract -/

/-- A point in 3-space with rational components. -/
abbrev Pt := Fin 3 → ℚ

/-- The all-zero point, used as out-of-range default. -/
def zeroPt : Pt := fun _ => 0

/-- Squared Euclidean distance between two points. -/
def sqDist (p q : Pt) : ℚ := ∑ i, (p i - q i) ^ 2

/-- Modelled from the spec: a rigid-body transform — a proper rotation (an
orthogonal matrix of determinant one) followed by a translation. -/
structure RigidT where
  rot : Matrix (Fin 3) (Fin 3) ℚ
  trans : Pt
  orthon : rot.transpose * rot = 1
  properRot : rot.det = 1

/-- Apply a rigid transform to a point. -/
def RigidT.apply (T : RigidT) (p : Pt) : Pt := T.rot.mulVec p + T.trans

/-- The identity rigid transform. -/
def idRigid : RigidT :=
  { rot := 1
    trans := 0
    orthon := by simp
    properRot := by simp }

/-- Modelled from the spec: a valid residue correspondence between a query of
`qn` residues and a target of `tn` residues — an edit script of matched pairs,
strictly increasing on both sides and in range. -/
def ValidCorr (qn tn : ℕ) (pairs : List (ℕ × ℕ)) : Prop :=
  List.Chain' (fun a b => a.1 < b.1 ∧ a.2 < b.2) pairs ∧
    ∀ p ∈ pairs, p.1 < qn ∧ p.2 < tn

/-- Squared distance between the transformed query residue and the target
residue of one aligned pair. -/
def alignedSqDist (X Y : List Pt) (T : RigidT) (p : ℕ × ℕ) : ℚ :=
  sqDist (T.apply (X.getD p.1 zeroPt)) (Y.getD p.2 zeroPt)

/-- The per-pair TM-score contribution `1 / (1 + (d/d0)²)`, written with the
squared distance. -/
def tmTerm (d0 sq : ℚ) : ℚ := 1 / (1 + sq / d0 ^ 2)

/-- Modelled from the spec: the TM-score of a correspondence under a
superposition — the sum of per-pair contributions normalized by the reference
length `L`. -/
def tmScoreVal (X Y : List Pt) (d0 L : ℚ) (T : RigidT) (pairs : List (ℕ × ℕ)) : ℚ :=
  ((pairs.map fun p => tmTerm d0 (alignedSqDist X Y T p)).sum) / L

/-- The mean squared deviation over the aligned pairs (the square of the
reported RMSD). -/
def meanSqDev (X Y : List Pt) (T : RigidT) (pairs : List (ℕ × ℕ)) : ℚ :=
  ((pairs.map (alignedSqDist X Y T)).sum) / pairs.length

/-- Modelled from the spec: the result of `align` — the final residue
correspondence, the superposition, and the reported TM-score and RMSD. -/
structure TMscoreResult where
  pairs : List (ℕ × ℕ)
  transform : RigidT
  tmscore : ℚ
  rmsd : ℚ

/-- Modelled from the spec: the input/output contract of the Superposition
Engine for query `X` and target `Y` with distance scale `d0` and reference
length `L`.  The returned correspondence is valid; the reference length is the
query length, the target length or their average; the reported TM-score is the
score of the returned correspondence under the returned superposition; the
reported RMSD is the nonnegative root of the mean squared deviation; and the
returned correspondence and superposition maximize the TM-score. -/
def AlignContract (X Y : List Pt) (d0 L : ℚ) (r : TMscoreResult) : Prop :=
  ValidCorr X.length Y.length r.pairs ∧
    (L = (X.length : ℚ) ∨ L = (Y.length : ℚ) ∨
      L = ((X.length : ℚ) + (Y.length : ℚ)) / 2) ∧
    r.tmscore = tmScoreVal X Y d0 L r.transform r.pairs ∧
    0 ≤ r.rmsd ∧ r.rmsd ^ 2 = meanSqDev X Y r.transform r.pairs ∧
    ∀ (pairs' : List (ℕ × ℕ)) (T' : RigidT), ValidCorr X.length Y.length pairs' →
      tmScoreVal X Y d0 L T' pairs' ≤ r.tmscore

/-- The identity correspondence matching residue `i` to residue `i`. -/
def idPairs (n : ℕ) : List (ℕ × ℕ) := (List.range n).map fun i => (i, i)

/-! ## LDDT calculator -/

/-- Modelled from the spec: one column of a residue-level alignment —
match, insertion in the model, or deletion in the model. -/
inductive AlnOp where
  | M
  | I
  | D
deriving DecidableEq

/-- Walk an alignment, producing the matched (reference, model) index pairs.
A match consumes one residue on both sides, an insertion in the model consumes
a model residue, a deletion consumes a reference residue. -/
def matchedPairs : List AlnOp → ℕ → ℕ → List (ℕ × ℕ)
  | [], _, _ => []
  | AlnOp.M :: rest, ri, mi => (ri, mi) :: matchedPairs rest (ri + 1) (mi + 1)
  | AlnOp.I :: rest, ri, mi => matchedPairs rest ri (mi + 1)
  | AlnOp.D :: rest, ri, mi => matchedPairs rest (ri + 1) mi

/-- The default LDDT tolerance thresholds, in Ångströms. -/
def lddtTolerances : List ℚ := [1 / 2, 1, 2, 4]

/-- The default LDDT inclusion radius, in Ångströms. -/
def lddtRadius : ℚ := 15

/-- Modelled from the spec: the LDDT result — the average score, the
per-residue scores (zero at unscored positions) and the number of residues
actually scored. -/
structure LDDTResult where
  average : ℚ
  perResidue : List ℚ
  scoredCount : ℕ
deriving DecidableEq

/-- Modelled from the spec: the neighbours of a matched pair `p` — the other
matched pairs whose reference residue lies within the inclusion radius of
`p`'s reference residue (distances are taken by the abstract metric `d`,
standing for the Euclidean distance of the compiled extension). -/
def lddtNbrs (d : Pt → Pt → ℚ) (ref : List Pt) (mp : List (ℕ × ℕ))
    (p : ℕ × ℕ) : List (ℕ × ℕ) :=
  mp.filter fun q =>
    decide (q ≠ p) &&
      decide (d (ref.getD p.1 zeroPt) (ref.getD q.1 zeroPt) ≤ lddtRadius)

/-- Modelled from the spec: the number of tolerance thresholds at which the
neighbour check of `p` against `q` passes — the reference distance and the
aligned model distance differ by at most the tolerance. -/
def lddtPassCount (d : Pt → Pt → ℚ) (ref model : List Pt) (p q : ℕ × ℕ) : ℕ :=
  (lddtTolerances.filter fun t =>
    decide (|d (ref.getD p.1 zeroPt) (ref.getD q.1 zeroPt) -
      d (model.getD p.2 zeroPt) (model.getD q.2 zeroPt)| ≤ t)).length

/-- Modelled from the spec: the per-residue LDDT score of one matched pair
`p` — the fraction of passing checks over its neighbours and all tolerance
thresholds.  A residue with no neighbours within the radius is not scored
(`none`). -/
def lddtResidue (d : Pt → Pt → ℚ) (ref model : List Pt)
    (mp : List (ℕ × ℕ)) (p : ℕ × ℕ) : Option ℚ :=
  let nbrs := lddtNbrs d ref mp p
  if nbrs.length = 0 then none
  else some (((nbrs.map fun q => (lddtPassCount d ref model p q : ℚ)).sum) /
    ((nbrs.length : ℚ) * (lddtTolerances.length : ℚ)))

/-- Modelled from the spec: the LDDT calculator — score every matched pair of
the alignment, exclude unscored residues from the average, and report the
average, the per-residue scores and the count of scored residues. -/
def lddt (d : Pt → Pt → ℚ) (ref model : List Pt) (aln : List AlnOp) : LDDTResult :=
  let mp := matchedPairs aln 0 0
  let scores := mp.map (lddtResidue d ref model mp)
  let scored := scores.filterMap id
  { average := if scored.length = 0 then 0 else scored.sum / (scored.length : ℚ)
    perResidue := scores.map fun o => o.getD 0
    scoredCount := scored.length }

/-! ## Concrete example data (used by witnesses and counterexamples) -/

/-- A symmetric pairwise TM-score table on five records: strong edges
0–4, 1–4 and 2–3 (score 9), a weaker edge 1–3 (score 7), everything else 1. -/
def exScore (i j : ℕ) : ℚ :=
  match min i j, max i j with
  | 0, 4 => 9
  | 1, 4 => 9
  | 2, 3 => 9
  | 1, 3 => 7
  | _, _ => 1

/-- Pairwise engine outputs realizing `exScore`, with full coverage. -/
def exPairAlign : ℕ → ℕ → AlignOut := fun i j =>
  { tmscore := exScore i j, rmsd := 0, alignLen := 1
    queryCoverage := 1, targetCoverage := 1 }

/-- A concrete engine oracle for a three-record database. -/
def exEngine : ℕ → AlignOut
  | 0 => ⟨9, 1, 50, 1, 0⟩
  | 1 => ⟨3, 2, 40, 1, 1⟩
  | _ => ⟨6, 1, 30, 0, 1⟩

/-- A concrete per-residue encoder assigning a fixed symbol. -/
def exEnc : ResidueEncoder := fun _ _ _ _ _ => 'D'

/-- A concrete single-residue chain whose cached 3Di sequence is the one
`exEnc` derives from its coordinates. -/
def exChain : Chain :=
  { name := "A", sequence := ['M']
    caCoords := [[0, 0, 0]], nCoords := [[0, 1, 0]]
    cCoords := [[1, 0, 0]], cbCoords := [[0, 0, 1]]
    seq3di := ['D'] }

/-- A concrete one-chain structure. -/
def exStructure : Structure := { filename := "ex.pdb", chains := [exChain] }

/-! ## General lemmas about the search pipeline -/

theorem hitBefore_tmscore_le {a b : SearchHit} (h : hitBefore a b) :
    b.tmscore ≤ a.tmscore := by
  have h1 := Prod.Lex.monotone_fst _ _ h
  simpa [hitKey] using h1

theorem search_none_eq {α : Type} (engine : α → AlignOut) (db : List α)
    (t c : ℚ) :
    search engine db t c none =
      ((db.enum.map fun p => mkHit p.1 (engine p.2)).filter
        (hitKeep t c)).insertionSort hitBefore := rfl

theorem search_some_eq {α : Type} (engine : α → AlignOut) (db : List α)
    (t c : ℚ) (m : ℕ) :
    search engine db t c (some m) = (search engine db t c none).take m := rfl

theorem search_sorted {α : Type} (engine : α → AlignOut) (db : List α)
    (t c : ℚ) (mh : Option ℕ) :
    List.Sorted hitBefore (search engine db t c mh) := by
  cases mh with
  | none => exact List.sorted_insertionSort hitBefore _
  | some m =>
    rw [search_some_eq]
    exact List.Pairwise.sublist (List.take_sublist m _)
      (List.sorted_insertionSort hitBefore _)

theorem mem_search_hitKeep {α : Type} {engine : α → AlignOut} {db : List α}
    {t c : ℚ} {mh : Option ℕ} {h : SearchHit}
    (hmem : h ∈ search engine db t c mh) : hitKeep t c h = true := by
  have hmem' : h ∈ (db.enum.map fun p => mkHit p.1 (engine p.2)).filter
      (hitKeep t c) := by
    cases mh with
    | none =>
      rw [search_none_eq] at hmem
      exact (List.mem_insertionSort hitBefore).mp hmem
    | some m =>
      rw [search_some_eq, search_none_eq] at hmem
      exact (List.mem_insertionSort hitBefore).mp (List.mem_of_mem_take hmem)
  exact List.of_mem_filter hmem'

theorem length_filter_mono {α : Type} (l : List α) (p q : α → Bool)
    (hpq : ∀ a, p a = true → q a = true) :
    (l.filter p).length ≤ (l.filter q).length := by
  induction l with
  | nil => simp
  | cons a tl ih =>
    simp only [List.filter_cons]
    cases hpa : p a with
    | true =>
      rw [hpq a hpa]
      simpa using ih
    | false =>
      cases hqa : q a with
      | true => exact le_trans ih (by simp)
      | false => simpa using ih

theorem hitKeep_mono {t₁ t₂ c : ℚ} (ht : t₁ ≤ t₂) (h : SearchHit)
    (hk : hitKeep t₂ c h = true) : hitKeep t₁ c h = true := by
  simp only [hitKeep, Bool.and_eq_true, Bool.or_eq_true, decide_eq_true_iff] at hk ⊢
  exact ⟨le_trans ht hk.1, hk.2⟩

/-! ## Claim C2 -/

/-- C2: every hit returned by `search` satisfies the filter — its TM-score is
at least the TM-score threshold, and its query coverage or its target coverage
is at least the coverage threshold; hence no record failing this conjunction
appears in the result list. -/
theorem search_hits_satisfy_filter {α : Type} (engine : α → AlignOut)
    (db : List α) (t c : ℚ) (mh : Option ℕ) (h : SearchHit)
    (hmem : h ∈ search engine db t c mh) :
    t ≤ h.tmscore ∧ (c ≤ h.queryCoverage ∨ c ≤ h.targetCoverage) := by
  have hk := mem_search_hitKeep hmem
  simpa [hitKeep, Bool.and_eq_true, Bool.or_eq_true, decide_eq_true_iff] using hk

/-- Witness for C2 at a concrete query/database. -/
theorem search_hits_satisfy_filter_witness :
    (5 : ℚ) ≤ (mkHit 0 (exEngine 0)).tmscore ∧
      ((0 : ℚ) ≤ (mkHit 0 (exEngine 0)).queryCoverage ∨
        (0 : ℚ) ≤ (mkHit 0 (exEngine 0)).targetCoverage) :=
  search_hits_satisfy_filter exEngine [0, 1, 2] 5 0 none (mkHit 0 (exEngine 0))
    (by decide)

/-! ## Claim C3 -/

/-- C3: the list returned by `search` is sorted by TM-score in descending
order, and when a max-hit cap is given the result has at most that many
elements, obtained by truncating the sorted unbounded result. -/
theorem search_sorted_by_tmscore_and_capped {α : Type} (engine : α → AlignOut)
    (db : List α) (t c : ℚ) (mh : Option ℕ) :
    (∀ i (h1 : i + 1 < (search engine db t c mh).length),
      ((search engine db t c mh).get ⟨i + 1, h1⟩).tmscore ≤
        ((search engine db t c mh).get ⟨i, Nat.lt_of_succ_lt h1⟩).tmscore) ∧
    ∀ m, mh = some m →
      (search engine db t c mh).length ≤ m ∧
        search engine db t c mh = (search engine db t c none).take m := by
  refine ⟨fun i h1 => ?_, fun m hm => ?_⟩
  · exact hitBefore_tmscore_le
      ((search_sorted engine db t c mh).rel_get_of_lt
        (Fin.mk_lt_mk.mpr (Nat.lt_succ_self i)))
  · subst hm
    refine ⟨?_, search_some_eq engine db t c m⟩
    rw [search_some_eq, List.length_take]
    exact min_le_left m _

/-- Witness for C3 at a concrete query/database with a cap of two hits. -/
theorem search_sorted_by_tmscore_and_capped_witness :
    ((search exEngine [0, 1, 2] 5 0 (some 2)).get
        ⟨1, by decide⟩).tmscore ≤
      ((search exEngine [0, 1, 2] 5 0 (some 2)).get ⟨0, by decide⟩).tmscore ∧
    (search exEngine [0, 1, 2] 5 0 (some 2)).length ≤ 2 :=
  ⟨(search_sorted_by_tmscore_and_capped exEngine [0, 1, 2] 5 0 (some 2)).1 0
      (by decide),
    ((search_sorted_by_tmscore_and_capped exEngine [0, 1, 2] 5 0 (some 2)).2 2
      rfl).1⟩

/-! ## Claim C4 -/

/-- C4 (amended): for a fixed query and database, raising the TM-score
threshold in `search` never increases the number of returned hits.  (The
cluster half of the original claim fails; see the counterexample below.) -/
theorem search_threshold_monotone {α : Type} (engine : α → AlignOut)
    (db : List α) (c : ℚ) (mh : Option ℕ) (t₁ t₂ : ℚ) (ht : t₁ ≤ t₂) :
    (search engine db t₂ c mh).length ≤ (search engine db t₁ c mh).length := by
  have base : ((db.enum.map fun p => mkHit p.1 (engine p.2)).filter
        (hitKeep t₂ c)).length ≤
      ((db.enum.map fun p => mkHit p.1 (engine p.2)).filter
        (hitKeep t₁ c)).length :=
    length_filter_mono _ _ _ (hitKeep_mono ht)
  cases mh with
  | none => simpa [search_none_eq] using base
  | some m =>
    rw [search_some_eq, search_some_eq, List.length_take, List.length_take]
    exact min_le_min (le_refl m) (by simpa [search_none_eq] using base)

/-- Witness for the amended C4 at a concrete query/database: raising the
threshold from 5 to 7 cannot increase the hit count. -/
theorem search_threshold_monotone_witness :
    (search exEngine [0, 1, 2] 7 0 none).length ≤
      (search exEngine [0, 1, 2] 5 0 none).length :=
  search_threshold_monotone exEngine [0, 1, 2] 0 none 5 7 (by norm_num)

/-- Counterexample to the cluster half of C4 as stated: on the five-record
database scored by `exPairAlign`, raising the TM-score threshold from 6 to 8
DECREASES the number of greedy clusters from 3 to 2.  (At threshold 6 record 1
has the unique highest degree and absorbs records 3 and 4, stranding 0 and 2
as singletons; at threshold 8 the weak edge 1–3 disappears, record 4 becomes
the representative, and the pool splits into exactly two clusters.) -/
theorem cluster_threshold_not_monotone :
    (6 : ℚ) ≤ 8 ∧
      (clusterGreedy exPairAlign 5 8 0).length <
        (clusterGreedy exPairAlign 5 6 0).length := by
  refine ⟨by norm_num, ?_⟩
  decide

/-! ## Claim C8 -/

/-- C8: degenerate-but-legal searches return empty results rather than
erroring — a search over the empty database returns `[]` at every threshold,
and (given that the engine's TM-scores never exceed one, per the data model) a
search with a TM-score threshold above one returns `[]`. -/
theorem search_degenerate_returns_empty {α : Type} (engine : α → AlignOut)
    (db : List α) (t c : ℚ) (mh : Option ℕ) :
    search engine ([] : List α) t c mh = [] ∧
      ((∀ r ∈ db, (engine r).tmscore ≤ 1) → 1 < t →
        search engine db t c mh = []) := by
  constructor
  · cases mh <;> simp [search]
  · intro hub ht
    have hfe : (db.enum.map fun p => mkHit p.1 (engine p.2)).filter
        (hitKeep t c) = [] := by
      rw [List.filter_eq_nil_iff]
      intro a ha
      obtain ⟨p, hp, rfl⟩ := List.mem_map.mp ha
      have hle : (engine p.2).tmscore ≤ 1 := hub p.2 (List.snd_mem_of_mem_enum hp)
      simp only [hitKeep, mkHit, Bool.and_eq_true, decide_eq_true_iff, not_and]
      intro hta
      exact absurd hta (not_le.mpr (lt_of_le_of_lt hle ht))
    cases mh with
    | none => rw [search_none_eq, hfe]; rfl
    | some m => rw [search_some_eq, search_none_eq, hfe]; simp

/-- Witness for C8: the empty database at the legal default threshold 0, and a
concrete two-record database at the impossible threshold 2. -/
theorem search_degenerate_returns_empty_witness :
    search (fun _ : ℕ => AlignOut.mk 1 0 10 1 1) ([] : List ℕ) 0 0 none = [] ∧
      search (fun _ : ℕ => AlignOut.mk 1 0 10 1 1) [5, 6] 2 0 none = [] :=
  ⟨(search_degenerate_returns_empty (fun _ : ℕ => AlignOut.mk 1 0 10 1 1) [5, 6]
      0 0 none).1,
    (search_degenerate_returns_empty (fun _ : ℕ => AlignOut.mk 1 0 10 1 1) [5, 6]
      2 0 none).2 (by intro r _; norm_num) (by norm_num)⟩

/-! ## General lemmas about greedy clustering -/

theorem foldl_mem_of_choice (g : ℕ → ℕ → ℕ) (hg : ∀ b j, g b j = b ∨ g b j = j) :
    ∀ (l : List ℕ) (a : ℕ), l.foldl g a = a ∨ l.foldl g a ∈ l := by
  intro l
  induction l with
  | nil => intro a; exact Or.inl rfl
  | cons x xs ih =>
    intro a
    simp only [List.foldl_cons]
    rcases hg a x with h | h
    · rw [h]
      rcases ih a with h' | h'
      · exact Or.inl h'
      · exact Or.inr (List.mem_cons_of_mem x h')
    · rw [h]
      rcases ih x with h' | h'
      · exact Or.inr (by rw [h']; exact List.mem_cons_self x xs)
      · exact Or.inr (List.mem_cons_of_mem x h')

theorem pickRep_mem (sim : ℕ → ℕ → Bool) (j : ℕ) (rest : List ℕ) :
    pickRep sim (j :: rest) ∈ j :: rest := by
  have hpick : pickRep sim (j :: rest) =
      rest.foldl (fun best k =>
        if degree sim (j :: rest) best < degree sim (j :: rest) k ∨
            (degree sim (j :: rest) best = degree sim (j :: rest) k ∧ k < best)
          then k else best) j := rfl
  rw [hpick]
  have hg : ∀ b k,
      (if degree sim (j :: rest) b < degree sim (j :: rest) k ∨
          (degree sim (j :: rest) b = degree sim (j :: rest) k ∧ k < b)
        then k else b) = b ∨
      (if degree sim (j :: rest) b < degree sim (j :: rest) k ∨
          (degree sim (j :: rest) b = degree sim (j :: rest) k ∧ k < b)
        then k else b) = k := by
    intro b k
    by_cases h : degree sim (j :: rest) b < degree sim (j :: rest) k ∨
        (degree sim (j :: rest) b = degree sim (j :: rest) k ∧ k < b)
    · simp [h]
    · simp [h]
  rcases foldl_mem_of_choice _ hg rest j with h | h
  · rw [h]; exact List.mem_cons_self j rest
  · exact List.mem_cons_of_mem j h

theorem filter_cons_self_perm (rep : ℕ) (p : ℕ → Bool) (hp : p rep = false) :
    ∀ (l : List ℕ), l.Nodup → rep ∈ l →
      List.Perm (l.filter fun k => decide (k = rep) || p k) (rep :: l.filter p) := by
  intro l
  induction l with
  | nil => intro _ hmem; cases hmem
  | cons a t ih =>
    intro hnd hmem
    by_cases ha : a = rep
    · subst ha
      have hnotmem : a ∉ t := (List.nodup_cons.mp hnd).1
      have hft : t.filter (fun k => decide (k = a) || p k) = t.filter p := by
        apply List.filter_congr
        intro k hk
        have hka : k ≠ a := fun he => hnotmem (he ▸ hk)
        simp [hka]
      have e1 : (a :: t).filter (fun k => decide (k = a) || p k) =
          a :: t.filter (fun k => decide (k = a) || p k) := by simp
      have e2 : (a :: t).filter p = t.filter p := by simp [hp]
      rw [e1, e2, hft]
    · have hmem' : rep ∈ t := by
        rcases List.mem_cons.mp hmem with h | h
        · exact absurd h.symm ha
        · exact h
      have ih' := ih (List.nodup_cons.mp hnd).2 hmem'
      cases hpaval : p a with
      | true =>
        have e1 : (a :: t).filter (fun k => decide (k = rep) || p k) =
            a :: t.filter (fun k => decide (k = rep) || p k) := by
          simp [List.filter_cons, ha, hpaval]
        have e2 : (a :: t).filter p = a :: t.filter p := by
          simp [List.filter_cons, hpaval]
        rw [e1, e2]
        exact (ih'.cons a).trans (List.Perm.swap rep a _)
      | false =>
        have e1 : (a :: t).filter (fun k => decide (k = rep) || p k) =
            t.filter (fun k => decide (k = rep) || p k) := by
          simp [List.filter_cons, ha, hpaval]
        have e2 : (a :: t).filter p = t.filter p := by
          simp [List.filter_cons, hpaval]
        rw [e1, e2]
        exact ih'

theorem length_filter_lt (l : List ℕ) (a : ℕ) (p : ℕ → Bool) (ha : a ∈ l)
    (hpa : p a = false) : (l.filter p).length < l.length := by
  have hsub : List.Sublist (l.filter p) l := List.filter_sublist l
  rcases lt_or_eq_of_le hsub.length_le with h | h
  · exact h
  · exfalso
    have heq : l.filter p = l := hsub.eq_of_length h
    have : p a = true := List.of_mem_filter (heq ▸ ha)
    rw [hpa] at this
    exact Bool.false_ne_true this

theorem clusterIndices_nil : clusterIndices [] = [] := rfl

theorem clusterIndices_cons (c : Cluster) (cs : List Cluster) :
    clusterIndices (c :: cs) = c.indices ++ clusterIndices cs := by
  simp [clusterIndices]

theorem clusterIndices_length :
    ∀ cs : List Cluster, (clusterIndices cs).length = (cs.map Cluster.size).sum := by
  intro cs
  induction cs with
  | nil => rfl
  | cons c t ih =>
    rw [clusterIndices_cons, List.length_append, ih]
    simp only [List.map_cons, List.sum_cons, Cluster.indices, List.length_cons,
      Cluster.size]

theorem greedyAux_perm (sim : ℕ → ℕ → Bool) :
    ∀ (fuel : ℕ) (pool : List ℕ), pool.length ≤ fuel → pool.Nodup →
      List.Perm (clusterIndices (greedyAux sim fuel pool)) pool := by
  intro fuel
  induction fuel with
  | zero =>
    intro pool hlen _
    have : pool = [] := List.length_eq_zero.mp (Nat.le_zero.mp hlen)
    subst this
    exact List.Perm.refl []
  | succ fuel ih =>
    intro pool hlen hnd
    cases pool with
    | nil => exact List.Perm.refl []
    | cons j rest =>
      have hrepmem : pickRep sim (j :: rest) ∈ j :: rest := pickRep_mem sim j rest
      set rep := pickRep sim (j :: rest) with hrepdef
      have hstep : greedyAux sim (fuel + 1) (j :: rest) =
          { representativeIdx := rep,
            memberIndices := (j :: rest).filter fun k => decide (k ≠ rep) && sim rep k } ::
            greedyAux sim fuel
              ((j :: rest).filter fun k => !(decide (k = rep) || sim rep k)) := rfl
      set members := (j :: rest).filter fun k => decide (k ≠ rep) && sim rep k
        with hmembers
      set remaining := (j :: rest).filter fun k => !(decide (k = rep) || sim rep k)
        with hremaining
      have hqrep : (!(decide (rep = rep) || sim rep rep)) = false := by simp
      have hltrem : remaining.length < (j :: rest).length :=
        length_filter_lt _ rep _ hrepmem hqrep
      have hfuel : remaining.length ≤ fuel := by
        have := hlen
        simp only [List.length_cons] at this hltrem
        omega
      have hndrem : remaining.Nodup := hnd.filter _
      have ihm : List.Perm (clusterIndices (greedyAux sim fuel remaining)) remaining :=
        ih remaining hfuel hndrem
      have hpmemrep : (decide (rep ≠ rep) && sim rep rep) = false := by simp
      have perm1 : List.Perm
          ((j :: rest).filter fun k => decide (k = rep) || sim rep k)
          (rep :: members) := by
        have hcong : (j :: rest).filter (fun k => decide (k = rep) || sim rep k) =
            (j :: rest).filter
              (fun k => decide (k = rep) || (decide (k ≠ rep) && sim rep k)) := by
          apply List.filter_congr
          intro k _
          by_cases hk : k = rep <;> simp [hk]
        rw [hcong]
        exact filter_cons_self_perm rep _ hpmemrep (j :: rest) hnd hrepmem
      have perm2 : List.Perm
          (((j :: rest).filter fun k => decide (k = rep) || sim rep k) ++ remaining)
          (j :: rest) :=
        List.filter_append_perm _ (j :: rest)
      rw [hstep, clusterIndices_cons]
      exact ((List.Perm.append_left _ ihm).trans
        (List.Perm.append perm1.symm (List.Perm.refl remaining))).trans perm2

/-! ## Claim C1 -/

/-- C1: greedy clustering partitions the database — the indices collected over
all clusters (each cluster's representative together with its members) are
exactly the record indices `0, …, n-1`, no index occurs twice, and the cluster
sizes sum to the database size. -/
theorem cluster_partitions_database (pairAlign : ℕ → ℕ → AlignOut) (n : ℕ)
    (t c : ℚ) :
    (∀ i, i ∈ clusterIndices (clusterGreedy pairAlign n t c) ↔ i < n) ∧
      (clusterIndices (clusterGreedy pairAlign n t c)).Nodup ∧
      ((clusterGreedy pairAlign n t c).map Cluster.size).sum = n := by
  have hperm : List.Perm (clusterIndices (clusterGreedy pairAlign n t c))
      (List.range n) :=
    greedyAux_perm _ n (List.range n) (by simp) (List.nodup_range n)
  refine ⟨fun i => ?_, hperm.nodup_iff.mpr (List.nodup_range n), ?_⟩
  · rw [hperm.mem_iff, List.mem_range]
  · rw [← clusterIndices_length, hperm.length_eq, List.length_range]

/-! ## Claim C7 -/

/-- C7: calling `cluster` with an unrecognized mode string fails with
InvalidArgumentError, and calling it with the recognized greedy mode succeeds,
returning the greedy cluster list. -/
theorem cluster_mode_validation (pairAlign : ℕ → ℕ → AlignOut) (n : ℕ)
    (t c : ℚ) (mode : String) (hmode : mode ≠ "greedy") :
    cluster pairAlign n t c mode = Except.error FsError.invalidArgumentError ∧
      cluster pairAlign n t c "greedy" =
        Except.ok (clusterGreedy pairAlign n t c) := by
  constructor
  · simp [cluster, hmode]
  · simp [cluster]

/-- Witness for C7 at the concrete unrecognized mode string used by the
tests. -/
theorem cluster_mode_validation_witness :
    cluster exPairAlign 5 8 0 "invalid_mode" =
        Except.error FsError.invalidArgumentError ∧
      cluster exPairAlign 5 8 0 "greedy" =
        Except.ok (clusterGreedy exPairAlign 5 8 0) :=
  cluster_mode_validation exPairAlign 5 8 0 "invalid_mode" (by decide)

/-! ## Claim C9 -/

/-- C9: `coords_to_3di` fails with ShapeError exactly when the four coordinate
arrays have mismatched lengths or a non-3-column row, and on every well-shaped
input it succeeds with one symbol per residue. -/
theorem coords_to_3di_shape_contract (enc : ResidueEncoder) (ca nc cc cb : Coords) :
    (¬ WellShaped ca nc cc cb →
      coordsTo3di enc ca nc cc cb = Except.error FsError.shapeError) ∧
    (WellShaped ca nc cc cb →
      coordsTo3di enc ca nc cc cb = Except.ok (encodeAll enc ca nc cc cb) ∧
        (encodeAll enc ca nc cc cb).length = ca.length) := by
  constructor
  · intro hbad
    simp [coordsTo3di, hbad]
  · intro hgood
    refine ⟨by simp [coordsTo3di, hgood], ?_⟩
    simp [encodeAll]

/-- Witness for C9: a one-residue input with a two-column Cα row fails with
ShapeError, and the corresponding well-shaped input encodes to one symbol. -/
theorem coords_to_3di_shape_contract_witness :
    coordsTo3di exEnc [[0, 0]] [[0, 1, 0]] [[1, 0, 0]] [[0, 0, 1]] =
        Except.error FsError.shapeError ∧
      coordsTo3di exEnc [[0, 0, 0]] [[0, 1, 0]] [[1, 0, 0]] [[0, 0, 1]] =
        Except.ok (encodeAll exEnc [[0, 0, 0]] [[0, 1, 0]] [[1, 0, 0]] [[0, 0, 1]]) ∧
      (encodeAll exEnc [[0, 0, 0]] [[0, 1, 0]] [[1, 0, 0]] [[0, 0, 1]]).length = 1 :=
  ⟨(coords_to_3di_shape_contract exEnc [[0, 0]] [[0, 1, 0]] [[1, 0, 0]]
      [[0, 0, 1]]).1 (by decide),
    (coords_to_3di_shape_contract exEnc [[0, 0, 0]] [[0, 1, 0]] [[1, 0, 0]]
      [[0, 0, 1]]).2 (by decide)⟩

/-! ## Claim C10 -/

/-- C10: the standalone encoder and the structure-derived sequence agree — for
every successfully loaded structure (at least one chain, each chain caching the
3Di sequence the encoder derives from its coordinates), passing the structure's
own flattened coordinate arrays to `coords_to_3di` returns exactly the
structure's cached 3Di sequence. -/
theorem coords_to_3di_matches_structure (enc : ResidueEncoder) (s : Structure)
    (_hne : s.chains ≠ []) (hwf : Chain.WF enc s.firstChain) :
    coordsTo3di enc s.caCoords s.nCoords s.cCoords s.cbCoords =
      Except.ok s.seq3di := by
  obtain ⟨hshape, hseq⟩ := hwf
  rw [Structure.caCoords, Structure.nCoords, Structure.cCoords, Structure.cbCoords,
    Structure.seq3di]
  rw [coordsTo3di, if_pos hshape, hseq]

/-- Witness for C10 at a concrete one-chain structure. -/
theorem coords_to_3di_matches_structure_witness :
    coordsTo3di exEnc exStructure.caCoords exStructure.nCoords
        exStructure.cCoords exStructure.cbCoords = Except.ok exStructure.seq3di :=
  coords_to_3di_matches_structure exEnc exStructure (by decide)
    ⟨by decide, by decide⟩

/-! ## General lemmas about the superposition engine contract -/

theorem sqDist_nonneg (p q : Pt) : 0 ≤ sqDist p q :=
  Finset.sum_nonneg fun i _ => sq_nonneg (p i - q i)

theorem sqDist_self (p : Pt) : sqDist p p = 0 := by
  simp [sqDist]

theorem idRigid_apply (p : Pt) : idRigid.apply p = p := by
  funext i
  simp [RigidT.apply, idRigid, Matrix.one_mulVec]

theorem tmTerm_le_one (d0 sq : ℚ) (hd0 : 0 < d0) (hsq : 0 ≤ sq) :
    tmTerm d0 sq ≤ 1 := by
  have hd2 : 0 < d0 ^ 2 := pow_pos hd0 2
  have hq : 0 ≤ sq / d0 ^ 2 := div_nonneg hsq hd2.le
  have hden : 0 < 1 + sq / d0 ^ 2 := by linarith
  rw [tmTerm, div_le_one hden]
  linarith

theorem tmTerm_zero (d0 : ℚ) : tmTerm d0 0 = 1 := by
  simp [tmTerm]

theorem tmTerm_eq_one (d0 sq : ℚ) (hd0 : 0 < d0) (hsq : 0 ≤ sq)
    (h : tmTerm d0 sq = 1) : sq = 0 := by
  have hd2 : 0 < d0 ^ 2 := pow_pos hd0 2
  have hq : 0 ≤ sq / d0 ^ 2 := div_nonneg hsq hd2.le
  have hden : 0 < 1 + sq / d0 ^ 2 := by linarith
  rw [tmTerm, div_eq_one_iff_eq hden.ne'] at h
  have hq0 : sq / d0 ^ 2 = 0 := by linarith
  rcases div_eq_zero_iff.mp hq0 with h0 | h0
  · exact h0
  · exact absurd h0 hd2.ne'

theorem sum_le_length (l : List ℚ) (h : ∀ x ∈ l, x ≤ 1) :
    l.sum ≤ (l.length : ℚ) := by
  induction l with
  | nil => simp
  | cons a t ih =>
    have ha : a ≤ 1 := h a (List.mem_cons_self a t)
    have ht : t.sum ≤ (t.length : ℚ) :=
      ih fun x hx => h x (List.mem_cons_of_mem a hx)
    simp only [List.sum_cons, List.length_cons]
    push_cast
    linarith

theorem all_eq_one_of_sum_eq_length (l : List ℚ) (hle : ∀ x ∈ l, x ≤ 1)
    (hsum : l.sum = (l.length : ℚ)) : ∀ x ∈ l, x = 1 := by
  induction l with
  | nil => intro x hx; cases hx
  | cons a t ih =>
    intro x hx
    have ha : a ≤ 1 := hle a (List.mem_cons_self a t)
    have htle : ∀ y ∈ t, y ≤ 1 := fun y hy => hle y (List.mem_cons_of_mem a hy)
    have htsum_le : t.sum ≤ (t.length : ℚ) := sum_le_length t htle
    have hsum' : a + t.sum = (t.length : ℚ) + 1 := by
      have := hsum
      simp only [List.sum_cons, List.length_cons] at this
      push_cast at this
      linarith
    have ha1 : a = 1 := le_antisymm ha (by linarith)
    have htsum : t.sum = (t.length : ℚ) := by linarith
    rcases List.mem_cons.mp hx with h | h
    · rw [h, ha1]
    · exact ih htle htsum x h

theorem validCorr_length_le (qn tn : ℕ) (pairs : List (ℕ × ℕ))
    (h : ValidCorr qn tn pairs) : pairs.length ≤ qn := by
  have hchain : List.Chain' (fun a b : ℕ => a < b) (pairs.map Prod.fst) :=
    (List.chain'_map Prod.fst).mpr (h.1.imp fun a b hab => hab.1)
  have hpw : List.Pairwise (fun a b : ℕ => a < b) (pairs.map Prod.fst) :=
    List.chain'_iff_pairwise.mp hchain
  have hnd : (pairs.map Prod.fst).Nodup := hpw.imp fun hab => Nat.ne_of_lt hab
  have hsub : (pairs.map Prod.fst).toFinset ⊆ Finset.range qn := by
    intro x hx
    rw [List.mem_toFinset] at hx
    obtain ⟨p, hp, rfl⟩ := List.mem_map.mp hx
    exact Finset.mem_range.mpr (h.2 p hp).1
  have hcard := Finset.card_le_card hsub
  rw [List.toFinset_card_of_nodup hnd, Finset.card_range] at hcard
  simpa using hcard

theorem validCorr_idPairs (n : ℕ) : ValidCorr n n (idPairs n) := by
  constructor
  · apply List.Pairwise.chain'
    rw [idPairs, List.pairwise_map]
    exact (List.pairwise_lt_range n).imp fun hab => ⟨hab, hab⟩
  · intro p hp
    obtain ⟨i, hi, rfl⟩ := List.mem_map.mp hp
    exact ⟨List.mem_range.mp hi, List.mem_range.mp hi⟩

theorem tmScoreVal_le_one (X Y : List Pt) (d0 L : ℚ) (T : RigidT)
    (pairs : List (ℕ × ℕ)) (hd0 : 0 < d0) (hlen : (pairs.length : ℚ) ≤ L)
    (hLpos : 0 < L) : tmScoreVal X Y d0 L T pairs ≤ 1 := by
  have hterm : ∀ x ∈ pairs.map fun p => tmTerm d0 (alignedSqDist X Y T p), x ≤ 1 := by
    intro x hx
    obtain ⟨p, _, rfl⟩ := List.mem_map.mp hx
    exact tmTerm_le_one d0 _ hd0 (sqDist_nonneg _ _)
  have hsum : (pairs.map fun p => tmTerm d0 (alignedSqDist X Y T p)).sum ≤
      (pairs.length : ℚ) := by
    have := sum_le_length _ hterm
    simpa using this
  rw [tmScoreVal, div_le_one hLpos]
  linarith

theorem sum_map_one {β : Type} (l : List β) :
    (l.map fun _ => (1 : ℚ)).sum = (l.length : ℚ) := by
  induction l with
  | nil => simp
  | cons a t ih => simp [ih]; ring

theorem tmScoreVal_idPairs (X : List Pt) (d0 : ℚ) (hn : 0 < X.length) :
    tmScoreVal X X d0 (X.length : ℚ) idRigid (idPairs X.length) = 1 := by
  have hmap : (idPairs X.length).map
      (fun p => tmTerm d0 (alignedSqDist X X idRigid p)) =
      (idPairs X.length).map fun _ => (1 : ℚ) := by
    apply List.map_congr_left
    intro p hp
    obtain ⟨i, _, rfl⟩ := List.mem_map.mp hp
    rw [alignedSqDist, idRigid_apply, sqDist_self, tmTerm_zero]
  have hlen : (idPairs X.length).length = X.length := by
    simp [idPairs]
  rw [tmScoreVal, hmap, sum_map_one, hlen, div_self]
  exact_mod_cast hn.ne'

theorem meanSqDev_idPairs (X : List Pt) (n : ℕ) :
    meanSqDev X X idRigid (idPairs n) = 0 := by
  have hmap : (idPairs n).map (alignedSqDist X X idRigid) =
      (idPairs n).map fun _ => (0 : ℚ) := by
    apply List.map_congr_left
    intro p hp
    obtain ⟨i, _, rfl⟩ := List.mem_map.mp hp
    rw [alignedSqDist, idRigid_apply, sqDist_self]
  rw [meanSqDev, hmap]
  simp

/-! ## Claim C5 -/

/-- C5: self-alignment is perfect — for every chain of at least three residues,
any result meeting the Superposition Engine's contract for the chain against an
identical copy of its own Cα coordinates reports a TM-score of exactly one and
an RMSD of exactly zero. -/
theorem align_self_perfect (X : List Pt) (d0 L : ℚ) (r : TMscoreResult)
    (hn : 3 ≤ X.length) (hd0 : 0 < d0) (hc : AlignContract X X d0 L r) :
    r.tmscore = 1 ∧ r.rmsd = 0 := by
  obtain ⟨hval, hLcase, htm, hrnn, hrsq, hopt⟩ := hc
  have hnpos : 0 < X.length := by omega
  have hLn : L = (X.length : ℚ) := by
    rcases hLcase with h | h | h
    · exact h
    · exact h
    · rw [h]; ring
  have hLpos : 0 < L := by
    rw [hLn]
    exact_mod_cast hnpos
  have hplen : (r.pairs.length : ℚ) ≤ L := by
    rw [hLn]
    exact_mod_cast validCorr_length_le _ _ _ hval
  have hub : r.tmscore ≤ 1 := by
    rw [htm]
    exact tmScoreVal_le_one X X d0 L r.transform r.pairs hd0 hplen hLpos
  have hlb : 1 ≤ r.tmscore := by
    have h1 := hopt (idPairs X.length) idRigid (validCorr_idPairs X.length)
    rw [hLn, tmScoreVal_idPairs X d0 hnpos] at h1
    exact h1
  have htm1 : r.tmscore = 1 := le_antisymm hub hlb
  refine ⟨htm1, ?_⟩
  have hterm_le : ∀ x ∈ r.pairs.map
      (fun p => tmTerm d0 (alignedSqDist X X r.transform p)), x ≤ 1 := by
    intro x hx
    obtain ⟨p, _, rfl⟩ := List.mem_map.mp hx
    exact tmTerm_le_one d0 _ hd0 (sqDist_nonneg _ _)
  have hsumL : (r.pairs.map
      (fun p => tmTerm d0 (alignedSqDist X X r.transform p))).sum = L := by
    have h1 : tmScoreVal X X d0 L r.transform r.pairs = 1 := by
      rw [← htm]; exact htm1
    rw [tmScoreVal, div_eq_one_iff_eq hLpos.ne'] at h1
    exact h1
  have hsum_le_len := sum_le_length _ hterm_le
  have hlen_map : ((r.pairs.map
      (fun p => tmTerm d0 (alignedSqDist X X r.transform p))).length : ℚ) =
      (r.pairs.length : ℚ) := by simp
  have hsum_eq_len : (r.pairs.map
      (fun p => tmTerm d0 (alignedSqDist X X r.transform p))).sum =
      ((r.pairs.map
        (fun p => tmTerm d0 (alignedSqDist X X r.transform p))).length : ℚ) := by
    rw [hlen_map]
    have h1 : L ≤ (r.pairs.length : ℚ) := by
      rw [← hsumL]
      calc (r.pairs.map
          (fun p => tmTerm d0 (alignedSqDist X X r.transform p))).sum ≤
          ((r.pairs.map
            (fun p => tmTerm d0 (alignedSqDist X X r.transform p))).length : ℚ) :=
            hsum_le_len
        _ = (r.pairs.length : ℚ) := hlen_map
    rw [hsumL]
    exact le_antisymm h1 hplen
  have hall1 := all_eq_one_of_sum_eq_length _ hterm_le hsum_eq_len
  have hd_eq : ∀ p ∈ r.pairs, alignedSqDist X X r.transform p = 0 := by
    intro p hp
    have h1 : tmTerm d0 (alignedSqDist X X r.transform p) = 1 :=
      hall1 _ (List.mem_map_of_mem _ hp)
    exact tmTerm_eq_one d0 _ hd0 (sqDist_nonneg _ _) h1
  have hmean : meanSqDev X X r.transform r.pairs = 0 := by
    rw [meanSqDev]
    have : (r.pairs.map (alignedSqDist X X r.transform)).sum = 0 := by
      apply List.sum_eq_zero
      intro x hx
      obtain ⟨p, hp, rfl⟩ := List.mem_map.mp hx
      exact hd_eq p hp
    rw [this, zero_div]
  have hr2 : r.rmsd ^ 2 = 0 := by rw [hrsq, hmean]
  exact sq_eq_zero_iff.mp hr2

/-- Witness for C5 at a concrete three-residue chain, with the identity
correspondence and the identity superposition as the engine's result. -/
theorem align_self_perfect_witness :
    (TMscoreResult.mk (idPairs 3) idRigid 1 0).tmscore = 1 ∧
      (TMscoreResult.mk (idPairs 3) idRigid 1 0).rmsd = 0 :=
  align_self_perfect [zeroPt, zeroPt, zeroPt] 1 3
    (TMscoreResult.mk (idPairs 3) idRigid 1 0)
    (by norm_num) (by norm_num)
    ⟨validCorr_idPairs 3,
      Or.inl (by norm_num),
      by
        have := tmScoreVal_idPairs [zeroPt, zeroPt, zeroPt] 1 (by norm_num)
        simpa using this.symm,
      le_refl 0,
      by
        have := meanSqDev_idPairs [zeroPt, zeroPt, zeroPt] 3
        simpa using this.symm,
      fun pairs' T' hv => by
        have hlen : (pairs'.length : ℚ) ≤ 3 := by
          have := validCorr_length_le _ _ _ hv
          exact_mod_cast le_trans (Nat.cast_le.mpr this) (by norm_num)
        simpa using tmScoreVal_le_one [zeroPt, zeroPt, zeroPt]
          [zeroPt, zeroPt, zeroPt] 1 3 T' pairs' (by norm_num) hlen (by norm_num)⟩

/-! ## General lemmas about the LDDT calculator -/

theorem sum_map_const {β : Type} (l : List β) (c : ℚ) :
    (l.map fun _ => c).sum = (l.length : ℚ) * c := by
  induction l with
  | nil => simp
  | cons a t ih =>
    simp only [List.map_cons, List.sum_cons, List.length_cons, ih]
    push_cast
    ring

theorem sum_eq_length_of_all_one (l : List ℚ) (h : ∀ x ∈ l, x = 1) :
    l.sum = (l.length : ℚ) := by
  induction l with
  | nil => simp
  | cons a t ih =>
    have ha : a = 1 := h a (List.mem_cons_self a t)
    have ht : t.sum = (t.length : ℚ) :=
      ih fun x hx => h x (List.mem_cons_of_mem a hx)
    simp only [List.sum_cons, List.length_cons, ha, ht]
    push_cast
    ring

theorem matchedPairs_replicate (n : ℕ) :
    ∀ (a b : ℕ), matchedPairs (List.replicate n AlnOp.M) a b =
      (List.range n).map fun k => (a + k, b + k) := by
  induction n with
  | zero => intro a b; rfl
  | succ n ih =>
    intro a b
    rw [List.replicate_succ, matchedPairs, ih (a + 1) (b + 1),
      List.range_succ_eq_map, List.map_cons, List.map_map]
    refine congrArg₂ List.cons (by simp) ?_
    apply List.map_congr_left
    intro k _
    simp only [Function.comp_apply, Prod.mk.injEq]
    omega

theorem matchedPairs_allM (n : ℕ) :
    matchedPairs (List.replicate n AlnOp.M) 0 0 = idPairs n := by
  rw [matchedPairs_replicate n 0 0, idPairs]
  apply List.map_congr_left
  intro k _
  simp

theorem lddtTolerances_nonneg : ∀ t ∈ lddtTolerances, (0 : ℚ) ≤ t := by
  intro t ht
  fin_cases ht <;> norm_num

theorem lddtTolerances_length : (lddtTolerances.length : ℚ) = 4 := by
  norm_num [lddtTolerances]

theorem lddtPassCount_self (d : Pt → Pt → ℚ) (X : List Pt) (i j : ℕ) :
    lddtPassCount d X X (i, i) (j, j) = 4 := by
  rw [lddtPassCount]
  have hcong : ∀ t ∈ lddtTolerances,
      (decide (|d (X.getD (i, i).1 zeroPt) (X.getD (j, j).1 zeroPt) -
        d (X.getD (i, i).2 zeroPt) (X.getD (j, j).2 zeroPt)| ≤ t)) =
      decide ((0 : ℚ) ≤ t) := by
    intro t _
    rw [show (i, i).2 = (i, i).1 from rfl, show (j, j).2 = (j, j).1 from rfl,
      sub_self, abs_zero]
  rw [List.filter_congr hcong]
  rw [List.filter_eq_self.mpr fun t ht => by
    rw [decide_eq_true_iff]
    exact lddtTolerances_nonneg t ht]
  rfl

theorem mem_idPairs_elim {p : ℕ × ℕ} {n : ℕ} (hp : p ∈ idPairs n) :
    ∃ i, i < n ∧ p = (i, i) := by
  obtain ⟨i, hi, rfl⟩ := List.mem_map.mp hp
  exact ⟨i, List.mem_range.mp hi, rfl⟩

theorem lddtResidue_self_eq_one (d : Pt → Pt → ℚ) (X : List Pt) (n : ℕ)
    (p : ℕ × ℕ) (hp : p ∈ idPairs n) (x : ℚ)
    (hx : lddtResidue d X X (idPairs n) p = some x) : x = 1 := by
  obtain ⟨i, _, rfl⟩ := mem_idPairs_elim hp
  rw [lddtResidue] at hx
  by_cases h0 : (lddtNbrs d X (idPairs n) (i, i)).length = 0
  · rw [if_pos h0] at hx
    exact Option.noConfusion hx
  · rw [if_neg h0] at hx
    have hx' := Option.some.inj hx
    have hmapconst : (lddtNbrs d X (idPairs n) (i, i)).map
        (fun q => (lddtPassCount d X X (i, i) q : ℚ)) =
        (lddtNbrs d X (idPairs n) (i, i)).map fun _ => (4 : ℚ) := by
      apply List.map_congr_left
      intro q hq
      have hqmp : q ∈ idPairs n := List.mem_of_mem_filter hq
      obtain ⟨k, _, rfl⟩ := mem_idPairs_elim hqmp
      rw [lddtPassCount_self]
      norm_num
    rw [hmapconst, sum_map_const, lddtTolerances_length] at hx'
    have hne : ((lddtNbrs d X (idPairs n) (i, i)).length : ℚ) ≠ 0 :=
      Nat.cast_ne_zero.mpr h0
    rw [← hx']
    exact div_self (mul_ne_zero hne (by norm_num))

theorem lddtResidue_self_isSome (d : Pt → Pt → ℚ) (X : List Pt) (n i j : ℕ)
    (_hi : i < n) (hj : j < n) (hij : i ≠ j)
    (hnear : d (X.getD i zeroPt) (X.getD j zeroPt) ≤ lddtRadius) :
    ∃ y, lddtResidue d X X (idPairs n) (i, i) = some y := by
  have hjmem : (j, j) ∈ lddtNbrs d X (idPairs n) (i, i) := by
    rw [lddtNbrs]
    apply List.mem_filter.mpr
    refine ⟨List.mem_map_of_mem _ (List.mem_range.mpr hj), ?_⟩
    have hne : ((j, j) : ℕ × ℕ) ≠ (i, i) := fun h =>
      hij (congrArg Prod.fst h).symm
    simp only [Bool.and_eq_true, decide_eq_true_iff]
    exact ⟨hne, hnear⟩
  have h0 : (lddtNbrs d X (idPairs n) (i, i)).length ≠ 0 := by
    intro hzero
    rw [List.length_eq_zero] at hzero
    rw [hzero] at hjmem
    cases hjmem
  refine ⟨((lddtNbrs d X (idPairs n) (i, i)).map
      fun q => (lddtPassCount d X X (i, i) q : ℚ)).sum /
      (((lddtNbrs d X (idPairs n) (i, i)).length : ℚ) *
        (lddtTolerances.length : ℚ)), ?_⟩
  show (if (lddtNbrs d X (idPairs n) (i, i)).length = 0 then none
    else some (((lddtNbrs d X (idPairs n) (i, i)).map
      fun q => (lddtPassCount d X X (i, i) q : ℚ)).sum /
      (((lddtNbrs d X (idPairs n) (i, i)).length : ℚ) *
        (lddtTolerances.length : ℚ)))) = _
  rw [if_neg h0]

/-! ## Claim C6 (corrected) -/

/-- Counterexample to C6 as stated (for EVERY coordinate set): on a
single-residue coordinate set, the all-match self-comparison scores no
residue — the only matched pair has no neighbour within the inclusion
radius — so the average is 0, not approximately 1. -/
theorem lddt_single_residue_average_zero :
    (lddt (fun _ _ => 0) [zeroPt] [zeroPt] [AlnOp.M]).average = 0 ∧
      (lddt (fun _ _ => 0) [zeroPt] [zeroPt] [AlnOp.M]).average ≠ 1 := by
  decide

/-- C6 (amended): LDDT self-comparison is perfect whenever anything is scored
at all — for every coordinate set `X` in which some residue has another
residue within the inclusion radius, `lddt(X, X, all-match)` yields an average
of exactly one, which lies in `[0, 1]`. -/
theorem lddt_self_all_match_average_one (d : Pt → Pt → ℚ) (X : List Pt)
    (i j : ℕ) (hi : i < X.length) (hj : j < X.length) (hij : i ≠ j)
    (hnear : d (X.getD i zeroPt) (X.getD j zeroPt) ≤ lddtRadius) :
    (lddt d X X (List.replicate X.length AlnOp.M)).average = 1 ∧
      0 ≤ (lddt d X X (List.replicate X.length AlnOp.M)).average ∧
      (lddt d X X (List.replicate X.length AlnOp.M)).average ≤ 1 := by
  have hmp := matchedPairs_allM X.length
  have havg : (lddt d X X (List.replicate X.length AlnOp.M)).average =
      (if (((matchedPairs (List.replicate X.length AlnOp.M) 0 0).map
            (lddtResidue d X X
              (matchedPairs (List.replicate X.length AlnOp.M) 0 0))).filterMap
            id).length = 0
        then 0
        else (((matchedPairs (List.replicate X.length AlnOp.M) 0 0).map
            (lddtResidue d X X
              (matchedPairs (List.replicate X.length AlnOp.M) 0 0))).filterMap
            id).sum /
          ((((matchedPairs (List.replicate X.length AlnOp.M) 0 0).map
            (lddtResidue d X X
              (matchedPairs (List.replicate X.length AlnOp.M) 0 0))).filterMap
            id).length : ℚ)) := rfl
  rw [hmp] at havg
  have hallone : ∀ x ∈ ((idPairs X.length).map
      (lddtResidue d X X (idPairs X.length))).filterMap id, x = 1 := by
    intro x hx
    obtain ⟨o, ho, hox⟩ := List.mem_filterMap.mp hx
    obtain ⟨p, hp, rfl⟩ := List.mem_map.mp ho
    exact lddtResidue_self_eq_one d X X.length p hp x hox
  have hnonempty : (((idPairs X.length).map
      (lddtResidue d X X (idPairs X.length))).filterMap id).length ≠ 0 := by
    obtain ⟨y, hy⟩ := lddtResidue_self_isSome d X X.length i j hi hj hij hnear
    have hymem : y ∈ ((idPairs X.length).map
        (lddtResidue d X X (idPairs X.length))).filterMap id := by
      apply List.mem_filterMap.mpr
      refine ⟨lddtResidue d X X (idPairs X.length) (i, i), ?_, hy⟩
      exact List.mem_map_of_mem _ (List.mem_map_of_mem _ (List.mem_range.mpr hi))
    intro hzero
    rw [List.length_eq_zero] at hzero
    rw [hzero] at hymem
    cases hymem
  have hsum := sum_eq_length_of_all_one _ hallone
  have havg1 : (lddt d X X (List.replicate X.length AlnOp.M)).average = 1 := by
    rw [havg, if_neg hnonempty, hsum, div_self (Nat.cast_ne_zero.mpr hnonempty)]
  exact ⟨havg1, by rw [havg1]; norm_num, by rw [havg1]⟩

/-- Witness for the amended C6 at a concrete two-residue coordinate set with
the two residues within the inclusion radius. -/
theorem lddt_self_all_match_average_one_witness :
    (lddt (fun _ _ => 0) [zeroPt, zeroPt] [zeroPt, zeroPt]
        (List.replicate 2 AlnOp.M)).average = 1 ∧
      0 ≤ (lddt (fun _ _ => 0) [zeroPt, zeroPt] [zeroPt, zeroPt]
        (List.replicate 2 AlnOp.M)).average ∧
      (lddt (fun _ _ => 0) [zeroPt, zeroPt] [zeroPt, zeroPt]
        (List.replicate 2 AlnOp.M)).average ≤ 1 :=
  lddt_self_all_match_average_one (fun _ _ => 0) [zeroPt, zeroPt] 0 1
    (by norm_num) (by norm_num) (by norm_num)
    (by rw [lddtRadius]; norm_num)

end Foldseek
